import Mathlib

/-!
Shallow embedding of the prerequisite-graph resolution engine of the
`prerecs` backend (`src/be/app/main.py`), together with proofs of the
behavioural claims about it.  Python strings are modelled as Lean
`String`/`List Char`, Python dicts as association lists in insertion
order, and the recursive/iterative graph traversals as fuel-indexed
structurally recursive functions (with fuel-stability theorems showing
the fuel never matters past an explicit bound).
-/

namespace Prereqs

/-! ## String primitives (models of Python `str` operations) -/

/-- Model of Python's whitespace test used by `str.split` / `str.strip`. -/
def wsB (c : Char) : Bool := c.isWhitespace

/-- Remove leading whitespace (the front half of Python `str.strip`). -/
def trimLeft (l : List Char) : List Char := l.dropWhile wsB

/-- Remove trailing whitespace (the back half of Python `str.strip`). -/
def trimRight (l : List Char) : List Char := (l.reverse.dropWhile wsB).reverse

/-- Model of Python `str.strip()` on a character list. -/
def pyStrip (l : List Char) : List Char := trimRight (trimLeft l)

/-- Model of Python `str.lower()` on a character list. -/
def pyLower (l : List Char) : List Char := l.map Char.toLower

/-- Model of Python `str.strip()` at the `String` level. -/
def pyStripStr (s : String) : String := (pyStrip s.toList).asString

/-- Whether `needle` occurs at the very start of `hay`. -/
def startsWithL : List Char → List Char → Bool
  | [], _ => true
  | _ :: _, [] => false
  | a :: as, b :: bs => (a == b) && startsWithL as bs

/-- Model of Python's substring test `needle in hay`. -/
def containsSub (needle : List Char) : List Char → Bool
  | [] => needle.isEmpty
  | b :: t => startsWithL needle (b :: t) || containsSub needle t

/-- Model of `_normalize_course_id`: `"".join(course_id.split()).lower()`,
i.e. drop every whitespace character and lower-case the rest. -/
def normalize (s : String) : String :=
  ((s.toList.filter (fun c => !wsB c)).map Char.toLower).asString

/-! ## Data model (models of `schemas.py`) -/

/-- Model of the `Course` pydantic model. -/
structure Course where
  id : String
  name : String
  description : String
  credits : Option String := none
  rawRequirements : Option String := none
  prereqGroups : List (List String) := []
deriving DecidableEq, Repr

/-- Model of the `CourseCatalog` pydantic model. -/
structure CourseCatalog where
  department : String
  slug : String
  url : Option String := none
  generated_at : Option String := none
  courses : List Course := []
deriving DecidableEq, Repr

/-- Model of the `CourseSummary` pydantic model (search results). -/
structure CourseSummary where
  id : String
  name : String
deriving DecidableEq, Repr

/-- Model of the `ExternalCourseRef` pydantic model. -/
structure ExternalCourseRef where
  slug : String
  department : String
  course : Course
deriving DecidableEq, Repr

/-- Model of the `CourseDetail` pydantic model. -/
structure CourseDetail where
  department : String
  slug : String
  generated_at : Option String := none
  course : Course
  prerequisites : List Course := []
  postrequisites : List Course := []
  missing_prereq_ids : List String := []
  external_prereqs : List ExternalCourseRef := []
  related_courses : List Course := []
deriving DecidableEq, Repr

/-- The two not-found error kinds raised by the request path
(`HTTPException(404, ...)` in `_get_catalog_or_404` and
`_build_course_detail`), carrying exactly the names each message cites. -/
inductive ApiError where
  | catalogNotFound (slug : String)
  | courseNotFound (catalogSlug courseId : String)
deriving DecidableEq, Repr

/-! ## Index and edge maps (models of the dict comprehensions in
`_build_course_detail`) -/

/-- Model of `_prereq_ids`: flatten all groups, keeping only truthy
(non-empty) id strings. -/
def prereqIds (groups : List (List String)) : List String :=
  groups.flatten.filter (fun s => !s.isEmpty)

/-- Model of looking up a normalized id in the dict comprehension
`{_normalize_course_id(course.id): course for course in catalog.courses}`:
later courses overwrite earlier ones with the same normalized id, so the
lookup finds the last matching course. -/
def indexGet (courses : List Course) (key : String) : Option Course :=
  courses.reverse.find? (fun c => normalize c.id == key)

/-- The distinct normalized course ids of a catalog (the key set of the
index). -/
def allNorm (courses : List Course) : List String :=
  (courses.map (fun c => normalize c.id)).dedup

/-- Model of the `children` reverse-edge map: `childrenOf courses p` lists
the normalized ids of every course that cites `p` (normalized) among its
prerequisite references. -/
def childrenOf (courses : List Course) (p : String) : List String :=
  (courses.filter
      (fun c => (prereqIds c.prereqGroups).any (fun q => normalize q == p))).map
    (fun c => normalize c.id)

/-! ## Ancestor traversal (model of `_collect_ancestor_ids`) -/

/-- The mutable state threaded through the recursive `dfs` closure in
`_collect_ancestor_ids`: the visited set (as a list in insertion order),
the ordered missing list, and the `missing_seen` set. -/
structure AncState where
  visited : List String
  missing : List String
  missingSeen : List String
deriving DecidableEq, Repr

/-- The empty starting state of `_collect_ancestor_ids`. -/
def ancInit : AncState := ⟨[], [], []⟩

/-- One iteration of the `for prereq_id in _prereq_ids(...)` loop body of
the `dfs` closure, parametrised by the recursive call `recurse`.  Note the
missing-set membership test uses the raw `prereq_id`, not its normalized
form, exactly as in the source. -/
def ancStep (courses : List Course) (recurse : String → AncState → AncState)
    (st : AncState) (pid : String) : AncState :=
  match indexGet courses (normalize pid) with
  | none =>
      if pid ∈ st.missingSeen then st
      else { st with missing := st.missing ++ [pid],
                     missingSeen := pid :: st.missingSeen }
  | some _ =>
      if normalize pid ∈ st.visited then st
      else recurse (normalize pid) { st with visited := st.visited ++ [normalize pid] }

/-- Fuel-indexed model of the recursive `dfs` closure of
`_collect_ancestor_ids`.  The fuel only bounds the recursion depth; past
`ancFuel` it never runs out (proved below). -/
def dfsA (courses : List Course) : Nat → String → AncState → AncState
  | 0, _, st => st
  | fuel + 1, cur, st =>
      match indexGet courses cur with
      | none => st
      | some course =>
          (prereqIds course.prereqGroups).foldl (ancStep courses (dfsA courses fuel)) st

/-- Sufficient fuel for `dfsA` on a given catalog. -/
def ancFuel (courses : List Course) : Nat := courses.length + 1

/-- Model of `_collect_ancestor_ids`: returns (visited set as a list in
insertion order, missing prerequisite ids in first-encountered order). -/
def collect_ancestor_ids (courses : List Course) (startId : String) :
    List String × List String :=
  ((dfsA courses (ancFuel courses) startId ancInit).visited,
   (dfsA courses (ancFuel courses) startId ancInit).missing)

/-! ## Descendant traversal (model of `_collect_descendant_ids`) -/

/-- Fuel-indexed model of the `while stack:` loop of
`_collect_descendant_ids`; the visited set is kept as a list in insertion
order. -/
def descLoop (children : String → List String) :
    Nat → List String → List String → List String
  | 0, _, visited => visited
  | _ + 1, [], visited => visited
  | fuel + 1, cur :: stack, visited =>
      if cur ∈ visited then descLoop children fuel stack visited
      else descLoop children fuel (children cur ++ stack) (visited ++ [cur])

/-- Termination potential of the descendant loop: the stack size plus, for
every not-yet-visited node of the domain, one plus its out-degree.  Every
loop iteration strictly decreases it. -/
def descPotential (children : String → List String) (domain : List String)
    (stack visited : List String) : Nat :=
  stack.length +
    ((domain.filter (fun n => decide (n ∉ visited))).map
        (fun n => (children n).length + 1)).sum

/-- Sufficient fuel for the descendant loop started from `startId`. -/
def descFuel (courses : List Course) (startId : String) : Nat :=
  descPotential (childrenOf courses) (allNorm courses)
    (childrenOf courses startId) [] + 1

/-- Model of `_collect_descendant_ids` (with the `children` map built from
the catalog's courses, as `_build_course_detail` does). -/
def collect_descendant_ids (courses : List Course) (startId : String) :
    List String :=
  descLoop (childrenOf courses) (descFuel courses startId)
    (childrenOf courses startId) []

/-! ## Catalog-order selection (model of `_courses_in_catalog_order`) -/

/-- The accumulating `for course in catalog.courses` loop of
`_courses_in_catalog_order`. -/
def catalogOrderLoop (idSet : List String) : List Course → List Course → List Course
  | [], acc => acc
  | c :: rest, acc =>
      catalogOrderLoop idSet rest (if normalize c.id ∈ idSet then acc ++ [c] else acc)

/-- Model of `_courses_in_catalog_order`: the courses of the catalog whose
normalized id belongs to `idSet`, in catalog order. -/
def courses_in_catalog_order (catalog : CourseCatalog) (idSet : List String) :
    List Course :=
  catalogOrderLoop idSet catalog.courses []

/-! ## Prereq-group filtering (model of `_filter_course_prereqs`) -/

/-- Model of `_filter_course_prereqs`: keep in each group only the ids
whose normalized form is allowed, dropping groups this empties; the
course's other fields are copied unchanged (`model_copy`). -/
def filter_course_prereqs (course : Course) (allowedIds : List String) : Course :=
  { course with
    prereqGroups :=
      (course.prereqGroups.map
          (fun g => g.filter (fun cid => decide (normalize cid ∈ allowedIds)))).filter
        (fun g => !g.isEmpty) }

/-! ## External resolution (model of `_resolve_external_prereqs`) -/

/-- The doubly nested search loop of `_resolve_external_prereqs`: scan the
catalog mapping in insertion order, skip the current slug, scan each
catalog's courses in catalog order, and return the first course whose
normalized id matches (together with its catalog's slug and department). -/
def findExternal (currentSlug : String) (catalogs : List (String × CourseCatalog))
    (n : String) : Option ExternalCourseRef :=
  match catalogs with
  | [] => none
  | (slug, cat) :: rest =>
      if slug = currentSlug then findExternal currentSlug rest n
      else
        match cat.courses.find? (fun c => normalize c.id == n) with
        | some c => some ⟨slug, cat.department, c⟩
        | none => findExternal currentSlug rest n

/-- The `for prereq_id in missing_ids` loop of `_resolve_external_prereqs`,
threading the `external`, `still_missing` and `seen` accumulators. -/
def resolveLoop (currentSlug : String) (catalogs : List (String × CourseCatalog)) :
    List String → List ExternalCourseRef → List String → List String →
      List ExternalCourseRef × List String
  | [], ext, still, _ => (ext, still)
  | pid :: rest, ext, still, seen =>
      if normalize pid ∈ seen then resolveLoop currentSlug catalogs rest ext still seen
      else
        match findExternal currentSlug catalogs (normalize pid) with
        | some ref =>
            resolveLoop currentSlug catalogs rest (ext ++ [ref]) still (normalize pid :: seen)
        | none =>
            resolveLoop currentSlug catalogs rest ext (still ++ [pid]) (normalize pid :: seen)

/-- Model of `_resolve_external_prereqs`. -/
def resolve_external_prereqs (missingIds : List String) (currentSlug : String)
    (catalogs : List (String × CourseCatalog)) :
    List ExternalCourseRef × List String :=
  resolveLoop currentSlug catalogs missingIds [] [] []

/-- Reference formulation following the spec's words: deduplicate the
missing ids by normalized key, keeping the first occurrence's original
spelling, in input order.  Compared against `resolve_external_prereqs`. -/
def dedupFirstByNorm (seen : List String) : List String → List String
  | [] => []
  | pid :: rest =>
      if normalize pid ∈ seen then dedupFirstByNorm seen rest
      else pid :: dedupFirstByNorm (normalize pid :: seen) rest

/-! ## Detail assembly (model of `_build_course_detail` and the routes) -/

/-- Model of Python's `xs or ys` on lists: `ys` if `xs` is empty (falsy),
otherwise `xs`; used for the `related_courses or [course]` fallback. -/
def pyListOr (l fallback : List Course) : List Course :=
  if l.isEmpty then fallback else l

/-- The related id set `{normalized, *ancestor_ids, *descendant_ids}` of a
target course, as a list whose membership is the set. -/
def related_id_set (catalog : CourseCatalog) (courseId : String) : List String :=
  normalize courseId ::
    ((collect_ancestor_ids catalog.courses (normalize courseId)).1 ++
      collect_descendant_ids catalog.courses (normalize courseId))

/-- Model of `_build_course_detail`; the `HTTPException(404, ...)` raise
becomes the `courseNotFound` error value. -/
def build_course_detail (catalog : CourseCatalog) (courseId : String)
    (allCatalogs : List (String × CourseCatalog)) : Except ApiError CourseDetail :=
  match indexGet catalog.courses (normalize courseId) with
  | none => .error (.courseNotFound catalog.slug courseId)
  | some course =>
      .ok
        { department := catalog.department
          slug := catalog.slug
          generated_at := catalog.generated_at
          course := course
          prerequisites :=
            courses_in_catalog_order catalog
              (collect_ancestor_ids catalog.courses (normalize courseId)).1
          postrequisites :=
            courses_in_catalog_order catalog
              (collect_descendant_ids catalog.courses (normalize courseId))
          missing_prereq_ids :=
            (resolve_external_prereqs
                (collect_ancestor_ids catalog.courses (normalize courseId)).2
                catalog.slug allCatalogs).2
          external_prereqs :=
            (resolve_external_prereqs
                (collect_ancestor_ids catalog.courses (normalize courseId)).2
                catalog.slug allCatalogs).1
          related_courses :=
            pyListOr
              ((catalog.courses.filter
                    (fun c =>
                      decide (normalize c.id ∈ related_id_set catalog courseId))).map
                (fun c => filter_course_prereqs c (related_id_set catalog courseId)))
              [course] }

/-- Model of `catalogs.get(slug)` on the insertion-ordered slug → catalog
mapping (dict keys are unique, so the first match is the match). -/
def lookupSlug (catalogs : List (String × CourseCatalog)) (slug : String) :
    Option CourseCatalog :=
  (catalogs.find? (fun kv => kv.1 == slug)).map Prod.snd

/-- Model of the `GET /courses/{slug}/classes/{course_id}` handler:
`_get_catalog_or_404` followed by `_build_course_detail`. -/
def get_course_detail (catalogs : List (String × CourseCatalog))
    (slug courseId : String) : Except ApiError CourseDetail :=
  match lookupSlug catalogs slug with
  | none => .error (.catalogNotFound slug)
  | some catalog => build_course_detail catalog courseId catalogs

/-! ## Search (model of `search_courses`) -/

/-- The match test of the search loop: an empty (falsy) query matches
everything, otherwise the query must occur in the lower-cased id or the
lower-cased name. -/
def matchesQuery (query : List Char) (c : Course) : Bool :=
  query.isEmpty || containsSub query (pyLower c.id.toList) ||
    containsSub query (pyLower c.name.toList)

/-- The `for course in catalog.courses` loop of `search_courses`,
including the `if len(matches) >= 25: break` cap check performed after
each iteration. -/
def searchLoop (query : List Char) : List Course → List CourseSummary → List CourseSummary
  | [], ms => ms
  | c :: rest, ms =>
      if matchesQuery query c then
        if 25 ≤ (ms ++ [CourseSummary.mk c.id c.name]).length then ms ++ [CourseSummary.mk c.id c.name]
        else searchLoop query rest (ms ++ [CourseSummary.mk c.id c.name])
      else
        if 25 ≤ ms.length then ms
        else searchLoop query rest ms

/-- Model of the `GET /courses/{slug}/search` handler body (after the
catalog has been resolved): `query = q.strip().lower()` followed by the
capped scan. -/
def search_courses (catalog : CourseCatalog) (q : String) : List CourseSummary :=
  searchLoop (pyLower (pyStrip q.toList)) catalog.courses []

/-! ## Invariants of the traversal states -/

/-- Invariant maintained by the ancestor DFS state: the visited list has
no duplicates and stays inside the catalog's normalized id set, the
`missing_seen` set mirrors the missing list, and the missing list holds
no duplicate raw spellings. -/
def AncInv (courses : List Course) (st : AncState) : Prop :=
  st.visited.Nodup ∧ (∀ v ∈ st.visited, v ∈ allNorm courses) ∧
    st.missingSeen = st.missing.reverse ∧ st.missing.Nodup

/-- A recursion step that preserves `AncInv` and only ever appends to the
visited list. -/
def GoodStep (courses : List Course) (g : String → AncState → AncState) : Prop :=
  ∀ n st, AncInv courses st →
    AncInv courses (g n st) ∧ ∃ e, (g n st).visited = st.visited ++ e

/-! ## Concrete catalogs used as test inputs -/

/-- Course `A` of the two-course cycle (prereq `B`). -/
def courseA : Course := { id := "A", name := "Course A", description := "", prereqGroups := [["B"]] }

/-- Course `B` of the two-course cycle (prereq `A`). -/
def courseB : Course := { id := "B", name := "Course B", description := "", prereqGroups := [["A"]] }

/-- The two-course cyclic catalog from the spec's cycle-safety property. -/
def cycCatalog : CourseCatalog := { department := "CS", slug := "cs", courses := [courseA, courseB] }

/-- A course citing the same missing prerequisite under two spellings that
normalize identically. -/
def courseX : Course :=
  { id := "X", name := "Course X", description := "", prereqGroups := [["M 1", "m1"]] }

/-- Catalog containing only `courseX`. -/
def dupCatalog : CourseCatalog := { department := "CS", slug := "cs", courses := [courseX] }

/-- A prerequisite-free introductory course. -/
def course101 : Course := { id := "C101", name := "Intro", description := "" }

/-- A course requiring `C101` and (in a second group) the external `M1`. -/
def course102 : Course :=
  { id := "C102", name := "Next", description := "", prereqGroups := [["C101"], ["M1", "M9"]] }

/-- A two-course chain catalog with one external and one unresolvable
prerequisite reference. -/
def chainCatalog : CourseCatalog :=
  { department := "CS", slug := "cs", courses := [course101, course102] }

/-- A one-course mathematics catalog providing the external `M1`. -/
def mathCatalog : CourseCatalog :=
  { department := "Math", slug := "math",
    courses := [{ id := "M1", name := "Math 1", description := "" }] }

/-- The loaded catalog set pairing `chainCatalog` with `mathCatalog`. -/
def demoCatalogs : List (String × CourseCatalog) :=
  [("cs", chainCatalog), ("math", mathCatalog)]

/-- The course detail the model builds for `C102` in `chainCatalog`. -/
def demoDetail : CourseDetail :=
  match build_course_detail chainCatalog "C102" demoCatalogs with
  | .ok d => d
  | .error _ => { department := "", slug := "", course := course101 }

/-! ## Lemmas about stripping -/

/-- A list that survives `dropWhile` unchanged does so on any of its
initial segments. -/
theorem dropWhile_of_append {p : Char → Bool} {X P s : List Char}
    (hX : X.dropWhile p = X) (hPs : P ++ s = X) : P.dropWhile p = P := by
  cases P with
  | nil => rfl
  | cons a t =>
      rw [← hPs] at hX
      by_cases hpa : p a = true
      · rw [List.cons_append, List.dropWhile_cons, if_pos hpa] at hX
        have hle : ((t ++ s).dropWhile p).length ≤ (t ++ s).length :=
          (List.dropWhile_suffix p).sublist.length_le
        rw [hX] at hle
        simp at hle
      · simp [List.dropWhile_cons, hpa]

/-- Left-trimming is idempotent even after a right trim in between. -/
theorem trimLeft_trimRight_trimLeft (l : List Char) :
    trimLeft (trimRight (trimLeft l)) = trimRight (trimLeft l) := by
  have hX : (trimLeft l).dropWhile wsB = trimLeft l := List.dropWhile_idempotent wsB l
  obtain ⟨pre, hpre⟩ := List.dropWhile_suffix (l := (trimLeft l).reverse) wsB
  have hsplit : trimRight (trimLeft l) ++ pre.reverse = trimLeft l := by
    have h2 := congrArg List.reverse hpre
    simpa [trimRight, List.reverse_append] using h2
  exact dropWhile_of_append hX hsplit

/-- Right-trimming is idempotent. -/
theorem trimRight_trimRight (l : List Char) :
    trimRight (trimRight l) = trimRight l :=
  List.rdropWhile_idempotent wsB l

/-- Python `strip` is idempotent. -/
theorem pyStrip_idem (l : List Char) : pyStrip (pyStrip l) = pyStrip l := by
  show trimRight (trimLeft (trimRight (trimLeft l))) = trimRight (trimLeft l)
  rw [trimLeft_trimRight_trimLeft, trimRight_trimRight]

/-- Stripping an all-whitespace string yields the empty string. -/
theorem pyStrip_of_all_ws {l : List Char} (h : ∀ c ∈ l, wsB c) : pyStrip l = [] := by
  have h1 : trimLeft l = [] := List.dropWhile_eq_nil_iff.mpr h
  show trimRight (trimLeft l) = []
  rw [h1]
  rfl

/-- C10: the search endpoint gives the same result for a query and for the
query with surrounding whitespace stripped; in particular an
all-whitespace query behaves as the empty query. -/
theorem search_strip_equiv (catalog : CourseCatalog) (q : String) :
    search_courses catalog q = search_courses catalog (pyStripStr q) ∧
      ((∀ c ∈ q.toList, c.isWhitespace) →
        search_courses catalog q = search_courses catalog "") := by
  constructor
  · show searchLoop (pyLower (pyStrip q.toList)) catalog.courses [] =
      searchLoop (pyLower (pyStrip (pyStripStr q).toList)) catalog.courses []
    have ht : (pyStripStr q).toList = pyStrip q.toList := rfl
    rw [ht, pyStrip_idem]
  · intro h
    show searchLoop (pyLower (pyStrip q.toList)) catalog.courses [] =
      searchLoop (pyLower (pyStrip "".toList)) catalog.courses []
    rw [pyStrip_of_all_ws h]
    rfl

/-- Witness for `search_strip_equiv` at a concrete whitespace query. -/
theorem search_strip_equiv_witness :
    search_courses chainCatalog "  " = search_courses chainCatalog "" :=
  (search_strip_equiv chainCatalog "  ").2 (by decide)

/-! ## Lemmas about the search loop -/

/-- The capped search loop computes the first up-to-25 matches: with fewer
than 25 results accumulated it equals filtering then truncating. -/
theorem searchLoop_eq (query : List Char) :
    ∀ (courses : List Course) (acc : List CourseSummary), acc.length < 25 →
      searchLoop query courses acc =
        (acc ++ (courses.filter (matchesQuery query)).map
            (fun c => CourseSummary.mk c.id c.name)).take 25 := by
  intro courses
  induction courses with
  | nil =>
      intro acc hacc
      simp [searchLoop, List.take_of_length_le (Nat.le_of_lt hacc)]
  | cons c rest ih =>
      intro acc hacc
      by_cases hm : matchesQuery query c = true
      · by_cases hfull : 25 ≤ (acc ++ [CourseSummary.mk c.id c.name]).length
        · have hlen : (acc ++ [CourseSummary.mk c.id c.name]).length = 25 := by
            simp at hfull ⊢
            omega
          rw [searchLoop, if_pos hm, if_pos hfull, List.filter_cons_of_pos hm,
            List.map_cons]
          have hsplit :
              acc ++ CourseSummary.mk c.id c.name ::
                  (rest.filter (matchesQuery query)).map
                    (fun c => CourseSummary.mk c.id c.name) =
                (acc ++ [CourseSummary.mk c.id c.name]) ++
                  (rest.filter (matchesQuery query)).map
                    (fun c => CourseSummary.mk c.id c.name) := by
            simp
          rw [hsplit, ← hlen, List.take_left]
        · have hlt : (acc ++ [CourseSummary.mk c.id c.name]).length < 25 :=
            Nat.lt_of_not_le hfull
          rw [searchLoop, if_pos hm, if_neg hfull, ih _ hlt,
            List.filter_cons_of_pos hm]
          simp
      · have hnotfull : ¬ 25 ≤ acc.length := Nat.not_le_of_lt hacc
        rw [searchLoop, if_neg hm, if_neg hnotfull, ih _ hacc,
          List.filter_cons_of_neg (by simpa using hm)]

/-- C8: search returns at most 25 results; the results are exactly the
first up-to-25 courses in catalog order matching the (stripped,
lower-cased) query; a query that strips to nothing matches every
course, still subject to the cap. -/
theorem search_cap_law (catalog : CourseCatalog) (q : String) :
    (search_courses catalog q).length ≤ 25 ∧
      search_courses catalog q =
        ((catalog.courses.filter (matchesQuery (pyLower (pyStrip q.toList)))).map
            (fun c => CourseSummary.mk c.id c.name)).take 25 ∧
      (pyStrip q.toList = [] →
        search_courses catalog q =
          (catalog.courses.map (fun c => CourseSummary.mk c.id c.name)).take 25) := by
  have heq : search_courses catalog q =
      ((catalog.courses.filter (matchesQuery (pyLower (pyStrip q.toList)))).map
          (fun c => CourseSummary.mk c.id c.name)).take 25 := by
    have h := searchLoop_eq (pyLower (pyStrip q.toList)) catalog.courses [] (by simp)
    simpa [search_courses] using h
  refine ⟨?_, heq, ?_⟩
  · rw [heq]
    exact List.length_take_le 25 _
  · intro hempty
    rw [heq, hempty]
    have hall : catalog.courses.filter (matchesQuery (pyLower ([] : List Char))) =
        catalog.courses := by
      apply List.filter_eq_self.mpr
      intro a _
      simp [matchesQuery, pyLower]
    rw [hall]

/-- Witness for `search_cap_law` at the empty query on a concrete
catalog. -/
theorem search_cap_law_witness :
    search_courses chainCatalog "" =
      (chainCatalog.courses.map (fun c => CourseSummary.mk c.id c.name)).take 25 :=
  (search_cap_law chainCatalog "").2.2 (by decide)

/-! ## Lemmas about catalog-order selection and detail assembly -/

/-- The accumulating scan of `_courses_in_catalog_order` is filtering. -/
theorem catalogOrderLoop_eq (idSet : List String) :
    ∀ (courses : List Course) (acc : List Course),
      catalogOrderLoop idSet courses acc =
        acc ++ courses.filter (fun c => decide (normalize c.id ∈ idSet)) := by
  intro courses
  induction courses with
  | nil => intro acc; simp [catalogOrderLoop]
  | cons c rest ih =>
      intro acc
      by_cases hmem : normalize c.id ∈ idSet
      · rw [catalogOrderLoop, if_pos hmem, ih, List.filter_cons_of_pos (by simpa using hmem)]
        simp
      · rw [catalogOrderLoop, if_neg hmem, ih, List.filter_cons_of_neg (by simpa using hmem)]

/-- A successful index lookup returns a course of the catalog bearing the
looked-up normalized id. -/
theorem indexGet_mem {courses : List Course} {key : String} {c : Course}
    (h : indexGet courses key = some c) : c ∈ courses ∧ normalize c.id = key := by
  have hmem := List.mem_of_find?_eq_some h
  have hpred := List.find?_some h
  refine ⟨List.mem_reverse.mp hmem, ?_⟩
  simpa using hpred

/-- C7: the prerequisite and postrequisite lists of a built CourseDetail
are exactly the catalog's courses whose normalized id lies in the
ancestor (resp. descendant) set, in catalog order (a sublist of the
catalog), each course entry appearing at most once. -/
theorem detail_lists_catalog_order (catalogs : List (String × CourseCatalog))
    (catalog : CourseCatalog) (courseId : String) (detail : CourseDetail)
    (h : build_course_detail catalog courseId catalogs = .ok detail) :
    detail.prerequisites =
        catalog.courses.filter
          (fun c =>
            decide (normalize c.id ∈
              (collect_ancestor_ids catalog.courses (normalize courseId)).1)) ∧
      detail.postrequisites =
        catalog.courses.filter
          (fun c =>
            decide (normalize c.id ∈
              collect_descendant_ids catalog.courses (normalize courseId))) ∧
      List.Sublist detail.prerequisites catalog.courses ∧
      List.Sublist detail.postrequisites catalog.courses ∧
      (catalog.courses.Nodup → detail.prerequisites.Nodup ∧ detail.postrequisites.Nodup) := by
  rw [build_course_detail] at h
  cases hidx : indexGet catalog.courses (normalize courseId) with
  | none => rw [hidx] at h; exact absurd h (by simp)
  | some course =>
      rw [hidx] at h
      have hd := Except.ok.inj h
      have h1 : detail.prerequisites =
          catalog.courses.filter
            (fun c =>
              decide (normalize c.id ∈
                (collect_ancestor_ids catalog.courses (normalize courseId)).1)) := by
        rw [← hd]
        simpa [courses_in_catalog_order] using
          catalogOrderLoop_eq
            (collect_ancestor_ids catalog.courses (normalize courseId)).1
            catalog.courses []
      have h2 : detail.postrequisites =
          catalog.courses.filter
            (fun c =>
              decide (normalize c.id ∈
                collect_descendant_ids catalog.courses (normalize courseId))) := by
        rw [← hd]
        simpa [courses_in_catalog_order] using
          catalogOrderLoop_eq
            (collect_descendant_ids catalog.courses (normalize courseId))
            catalog.courses []
      have hs1 : List.Sublist detail.prerequisites catalog.courses := by
        rw [h1]; exact List.filter_sublist catalog.courses
      have hs2 : List.Sublist detail.postrequisites catalog.courses := by
        rw [h2]; exact List.filter_sublist catalog.courses
      exact ⟨h1, h2, hs1, hs2, fun hnd => ⟨hnd.sublist hs1, hnd.sublist hs2⟩⟩

/-- Witness for `detail_lists_catalog_order` on the demo catalog. -/
theorem detail_lists_catalog_order_witness :
    demoDetail.prerequisites =
        chainCatalog.courses.filter
          (fun c =>
            decide (normalize c.id ∈
              (collect_ancestor_ids chainCatalog.courses (normalize "C102")).1)) ∧
      demoDetail.prerequisites.Nodup := by
  have h := detail_lists_catalog_order demoCatalogs chainCatalog "C102" demoDetail rfl
  exact ⟨h.1, (h.2.2.2.2 (by decide)).1⟩

/-- C9: requesting course detail errors with `catalogNotFound` naming the
slug exactly when the slug is absent, errors with `courseNotFound` naming
the catalog and the requested id exactly when the slug resolves but the
normalized id misses the index, and otherwise returns a CourseDetail. -/
theorem detail_error_trichotomy (catalogs : List (String × CourseCatalog))
    (slug courseId : String) :
    (lookupSlug catalogs slug = none →
        get_course_detail catalogs slug courseId = .error (.catalogNotFound slug)) ∧
      (∀ cat, lookupSlug catalogs slug = some cat →
        indexGet cat.courses (normalize courseId) = none →
        get_course_detail catalogs slug courseId =
          .error (.courseNotFound cat.slug courseId)) ∧
      (∀ cat course, lookupSlug catalogs slug = some cat →
        indexGet cat.courses (normalize courseId) = some course →
        ∃ detail, get_course_detail catalogs slug courseId = .ok detail) := by
  refine ⟨?_, ?_, ?_⟩
  · intro h
    rw [get_course_detail, h]
  · intro cat hcat hidx
    rw [get_course_detail, hcat]
    show build_course_detail cat courseId catalogs = _
    rw [build_course_detail, hidx]
  · intro cat course hcat hidx
    rw [get_course_detail, hcat]
    show ∃ detail, build_course_detail cat courseId catalogs = .ok detail
    rw [build_course_detail, hidx]
    exact ⟨_, rfl⟩

/-- Witness for `detail_error_trichotomy` on the demo catalog set. -/
theorem detail_error_trichotomy_witness :
    get_course_detail demoCatalogs "nope" "C102" =
        .error (.catalogNotFound "nope") ∧
      get_course_detail demoCatalogs "cs" "ZZ" =
        .error (.courseNotFound "cs" "ZZ") ∧
      ∃ detail, get_course_detail demoCatalogs "cs" "C102" = .ok detail :=
  ⟨(detail_error_trichotomy demoCatalogs "nope" "C102").1 (by decide),
   (detail_error_trichotomy demoCatalogs "cs" "ZZ").2.1 chainCatalog (by decide) (by decide),
   (detail_error_trichotomy demoCatalogs "cs" "C102").2.2 chainCatalog course102
     (by decide) (by decide)⟩

/-! ## Lemmas about prereq-group filtering and related courses -/

/-- Filtering never leaves an empty group, and every surviving id
normalizes into the allowed set. -/
theorem filter_course_prereqs_sound (course : Course) (allowed : List String) :
    ∀ g ∈ (filter_course_prereqs course allowed).prereqGroups,
      g ≠ [] ∧ ∀ cid ∈ g, normalize cid ∈ allowed := by
  intro g hg
  simp only [filter_course_prereqs, List.mem_filter, List.mem_map] at hg
  obtain ⟨⟨g0, _, rfl⟩, hne⟩ := hg
  constructor
  · intro hnil
    rw [hnil] at hne
    simp at hne
  · intro cid hcid
    have hc := (List.mem_filter.mp hcid).2
    simpa using hc

/-- Filtering a course's prereq groups leaves its id unchanged. -/
theorem filter_course_prereqs_id (course : Course) (allowed : List String) :
    (filter_course_prereqs course allowed).id = course.id := rfl

/-- The related-courses list built for a found target is the mapped
filter (the fallback is not taken), and it contains the filtered copy of
a catalog course bearing the target's normalized id. -/
theorem related_courses_eq (catalogs : List (String × CourseCatalog))
    (catalog : CourseCatalog) (courseId : String) (detail : CourseDetail)
    (h : build_course_detail catalog courseId catalogs = .ok detail) :
    detail.related_courses =
      (catalog.courses.filter
          (fun c => decide (normalize c.id ∈ related_id_set catalog courseId))).map
        (fun c => filter_course_prereqs c (related_id_set catalog courseId)) ∧
    ∃ c0, c0 ∈ catalog.courses ∧ normalize c0.id = normalize courseId ∧
      filter_course_prereqs c0 (related_id_set catalog courseId) ∈
        detail.related_courses := by
  rw [build_course_detail] at h
  cases hidx : indexGet catalog.courses (normalize courseId) with
  | none => rw [hidx] at h; exact absurd h (by simp)
  | some course =>
      rw [hidx] at h
      have hd := Except.ok.inj h
      obtain ⟨hmem, hnorm⟩ := indexGet_mem hidx
      have hpred : decide (normalize course.id ∈ related_id_set catalog courseId) = true := by
        simp [related_id_set, hnorm]
      have hfil : course ∈ catalog.courses.filter
          (fun c => decide (normalize c.id ∈ related_id_set catalog courseId)) :=
        List.mem_filter.mpr ⟨hmem, hpred⟩
      have hmap : filter_course_prereqs course (related_id_set catalog courseId) ∈
          (catalog.courses.filter
              (fun c => decide (normalize c.id ∈ related_id_set catalog courseId))).map
            (fun c => filter_course_prereqs c (related_id_set catalog courseId)) :=
        List.mem_map_of_mem _ hfil
      have hne : ¬ ((catalog.courses.filter
          (fun c => decide (normalize c.id ∈ related_id_set catalog courseId))).map
            (fun c => filter_course_prereqs c (related_id_set catalog courseId))).isEmpty := by
        intro hempty
        rw [List.isEmpty_iff] at hempty
        rw [hempty] at hmap
        simp at hmap
      have hrel : detail.related_courses =
          (catalog.courses.filter
              (fun c => decide (normalize c.id ∈ related_id_set catalog courseId))).map
            (fun c => filter_course_prereqs c (related_id_set catalog courseId)) := by
        rw [← hd]
        show pyListOr _ _ = _
        rw [pyListOr, if_neg hne]
      refine ⟨hrel, course, hmem, hnorm, ?_⟩
      rw [hrel]
      exact hmap

/-- C4: in every built CourseDetail, every id in every group of every
related course's filtered prereqGroups normalizes into the related id
set, and no group is empty. -/
theorem related_groups_filtered (catalogs : List (String × CourseCatalog))
    (catalog : CourseCatalog) (courseId : String) (detail : CourseDetail)
    (h : build_course_detail catalog courseId catalogs = .ok detail) :
    ∀ c ∈ detail.related_courses, ∀ g ∈ c.prereqGroups,
      g ≠ [] ∧ ∀ cid ∈ g, normalize cid ∈ related_id_set catalog courseId := by
  intro c hc
  obtain ⟨hrel, -⟩ := related_courses_eq catalogs catalog courseId detail h
  rw [hrel] at hc
  obtain ⟨c0, -, rfl⟩ := List.mem_map.mp hc
  exact filter_course_prereqs_sound c0 (related_id_set catalog courseId)

/-- Witness for `related_groups_filtered` on the demo catalog. -/
theorem related_groups_filtered_witness :
    normalize "C101" ∈ related_id_set chainCatalog "C102" := by
  have h := related_groups_filtered demoCatalogs chainCatalog "C102" demoDetail rfl
  exact (h (filter_course_prereqs course102 (related_id_set chainCatalog "C102"))
    (by decide) ["C101"] (by decide)).2 "C101" (by decide)

/-- C5: the related-courses list of a built CourseDetail is never empty
and contains an entry bearing the target's normalized id; and the coded
fallback indeed maps an empty filtered list to the single unfiltered
target course. -/
theorem related_courses_nonempty (catalogs : List (String × CourseCatalog))
    (catalog : CourseCatalog) (courseId : String) (detail : CourseDetail)
    (h : build_course_detail catalog courseId catalogs = .ok detail) :
    detail.related_courses ≠ [] ∧
      (∃ c, c ∈ detail.related_courses ∧ normalize c.id = normalize courseId) ∧
      (∀ fallback : Course, pyListOr [] [fallback] = [fallback]) := by
  obtain ⟨hrel, c0, -, hnorm, hmem⟩ := related_courses_eq catalogs catalog courseId detail h
  refine ⟨?_, ⟨filter_course_prereqs c0 (related_id_set catalog courseId), hmem, ?_⟩, ?_⟩
  · intro hnil
    rw [hnil] at hmem
    simp at hmem
  · rw [filter_course_prereqs_id]
    exact hnorm
  · intro fallback
    rfl

/-- Witness for `related_courses_nonempty` on the demo catalog. -/
theorem related_courses_nonempty_witness :
    demoDetail.related_courses ≠ [] :=
  (related_courses_nonempty demoCatalogs chainCatalog "C102" demoDetail rfl).1

/-! ## Lemmas about external resolution -/

/-- The resolver loop maps deduplicated ids through the cross-catalog
search, splitting hits and misses while preserving order. -/
theorem resolveLoop_eq (slug : String) (catalogs : List (String × CourseCatalog)) :
    ∀ (missing : List String) (ext : List ExternalCourseRef)
      (still seen : List String),
      resolveLoop slug catalogs missing ext still seen =
        (ext ++ (dedupFirstByNorm seen missing).filterMap
            (fun pid => findExternal slug catalogs (normalize pid)),
         still ++ (dedupFirstByNorm seen missing).filter
            (fun pid => (findExternal slug catalogs (normalize pid)).isNone)) := by
  intro missing
  induction missing with
  | nil => intro ext still seen; simp [resolveLoop, dedupFirstByNorm]
  | cons pid rest ih =>
      intro ext still seen
      by_cases hseen : normalize pid ∈ seen
      · rw [resolveLoop, if_pos hseen, ih, dedupFirstByNorm, if_pos hseen]
      · rw [resolveLoop, if_neg hseen, dedupFirstByNorm, if_neg hseen]
        cases hf : findExternal slug catalogs (normalize pid) with
        | some ref =>
            show resolveLoop slug catalogs rest (ext ++ [ref]) still (normalize pid :: seen) = _
            rw [ih]
            simp [List.filterMap_cons, List.filter_cons, hf]
        | none =>
            show resolveLoop slug catalogs rest ext (still ++ [pid]) (normalize pid :: seen) = _
            rw [ih]
            simp [List.filterMap_cons, List.filter_cons, hf]

/-- First-occurrence deduplication yields a sublist of the input. -/
theorem dedupFirstByNorm_sublist :
    ∀ (l : List String) (seen : List String),
      List.Sublist (dedupFirstByNorm seen l) l := by
  intro l
  induction l with
  | nil => intro seen; simp [dedupFirstByNorm]
  | cons pid rest ih =>
      intro seen
      rw [dedupFirstByNorm]
      by_cases hseen : normalize pid ∈ seen
      · rw [if_pos hseen]
        exact (ih seen).cons pid
      · rw [if_neg hseen]
        exact (ih (normalize pid :: seen)).cons₂ pid

/-- C3: the external resolver deduplicates the missing ids by normalized
key (first occurrence's spelling kept), resolves each distinct id through
the first matching other catalog in insertion order (courses scanned in
catalog order), yields one ExternalCourseRef per hit, and appends every
miss to the still-missing list in original input order (a sublist of the
input). -/
theorem resolve_external_spec (missing : List String) (slug : String)
    (catalogs : List (String × CourseCatalog)) :
    resolve_external_prereqs missing slug catalogs =
        ((dedupFirstByNorm [] missing).filterMap
            (fun pid => findExternal slug catalogs (normalize pid)),
         (dedupFirstByNorm [] missing).filter
            (fun pid => (findExternal slug catalogs (normalize pid)).isNone)) ∧
      List.Sublist (resolve_external_prereqs missing slug catalogs).2 missing := by
  have h := resolveLoop_eq slug catalogs missing [] [] []
  constructor
  · simpa [resolve_external_prereqs] using h
  · have h2 : (resolve_external_prereqs missing slug catalogs).2 =
        (dedupFirstByNorm [] missing).filter
          (fun pid => (findExternal slug catalogs (normalize pid)).isNone) := by
      rw [resolve_external_prereqs, h]
      simp
    rw [h2]
    exact (List.filter_sublist _).trans (dedupFirstByNorm_sublist missing [])

/-! ## The target course inside its own traversal sets (cycle behaviour) -/

/-- C1 counterexample: in the two-course cycle A (prereq B), B (prereq A),
the traversals return the start course's own normalized id inside both the
ancestor set and the descendant set, so the sets are {A, B}, not {B}. -/
theorem target_in_own_sets_cycle :
    normalize courseA.id ∈
        (collect_ancestor_ids cycCatalog.courses (normalize courseA.id)).1 ∧
      normalize courseA.id ∈
        collect_descendant_ids cycCatalog.courses (normalize courseA.id) := by
  decide

/-- C1 amended: when the prerequisite graph has a cycle through the target
the target's normalized id appears in its own ancestor and descendant
sets; for the two-course cycle A (prereq B), B (prereq A), resolving A's
ancestors yields exactly {A, B} and resolving A's descendants yields
exactly {A, B}. -/
theorem cycle_sets_exact :
    (∀ x, x ∈ (collect_ancestor_ids cycCatalog.courses (normalize "A")).1 ↔
        (x = normalize "B" ∨ x = normalize "A")) ∧
      (∀ x, x ∈ collect_descendant_ids cycCatalog.courses (normalize "A") ↔
        (x = normalize "B" ∨ x = normalize "A")) := by
  have ha : (collect_ancestor_ids cycCatalog.courses (normalize "A")).1 = ["b", "a"] := by
    decide
  have hd : collect_descendant_ids cycCatalog.courses (normalize "A") = ["b", "a"] := by
    decide
  have hnb : normalize "B" = "b" := by decide
  have hna : normalize "A" = "a" := by decide
  constructor
  · intro x
    rw [ha, hnb, hna]
    simp [List.mem_cons]
  · intro x
    rw [hd, hnb, hna]
    simp [List.mem_cons]

/-! ## Missing-list identity (raw spelling, not normalized key) -/

/-- C2 counterexample: two spellings of the same missing prerequisite that
normalize identically are both recorded, so the missing list is not
deduplicated under normalized-key identity. -/
theorem missing_dedup_not_normalized :
    (collect_ancestor_ids dupCatalog.courses (normalize "X")).2 = ["M 1", "m1"] ∧
      normalize "M 1" = normalize "m1" ∧
      ¬ ((collect_ancestor_ids dupCatalog.courses (normalize "X")).2.map
          normalize).Nodup := by
  decide

/-! ## Invariant preservation for the ancestor traversal -/

/-- A course found by the index bears a normalized id of the catalog. -/
theorem mem_allNorm_of_indexGet {courses : List Course} {key : String} {c : Course}
    (h : indexGet courses key = some c) : key ∈ allNorm courses := by
  obtain ⟨hm, hn⟩ := indexGet_mem h
  rw [← hn]
  exact List.mem_dedup.mpr (List.mem_map_of_mem _ hm)

/-- One loop-body step preserves the DFS invariant and only appends to
the visited list, provided the recursive call does. -/
theorem ancStep_good (courses : List Course) (g : String → AncState → AncState)
    (hg : GoodStep courses g) (st : AncState) (pid : String) (h : AncInv courses st) :
    AncInv courses (ancStep courses g st pid) ∧
      ∃ e, (ancStep courses g st pid).visited = st.visited ++ e := by
  obtain ⟨hv, hsub, hseenEq, hmn⟩ := h
  rw [ancStep]
  cases hidx : indexGet courses (normalize pid) with
  | none =>
      by_cases hseen : pid ∈ st.missingSeen
      · rw [if_pos hseen]
        exact ⟨⟨hv, hsub, hseenEq, hmn⟩, [], by simp⟩
      · rw [if_neg hseen]
        refine ⟨⟨hv, hsub, ?_, ?_⟩, [], by simp⟩
        · show pid :: st.missingSeen = (st.missing ++ [pid]).reverse
          simp [hseenEq]
        · show (st.missing ++ [pid]).Nodup
          have hpid : pid ∉ st.missing := by
            intro hmem
            apply hseen
            rw [hseenEq]
            simpa using hmem
          simp [List.nodup_append, hmn, hpid]
  | some c =>
      by_cases hvis : normalize pid ∈ st.visited
      · rw [if_pos hvis]
        exact ⟨⟨hv, hsub, hseenEq, hmn⟩, [], by simp⟩
      · rw [if_neg hvis]
        have hinv' : AncInv courses { st with visited := st.visited ++ [normalize pid] } := by
          refine ⟨?_, ?_, hseenEq, hmn⟩
          · simp [List.nodup_append, hv, hvis]
          · intro v hvmem
            rcases List.mem_append.mp hvmem with h' | h'
            · exact hsub v h'
            · simp only [List.mem_singleton] at h'
              rw [h']
              exact mem_allNorm_of_indexGet hidx
        obtain ⟨hinv2, e, he⟩ := hg (normalize pid) _ hinv'
        refine ⟨hinv2, [normalize pid] ++ e, ?_⟩
        rw [he]
        simp

/-- The whole prerequisite loop preserves the DFS invariant and only
appends to the visited list. -/
theorem foldl_ancStep_good (courses : List Course) (g : String → AncState → AncState)
    (hg : GoodStep courses g) :
    ∀ (pids : List String) (st : AncState), AncInv courses st →
      AncInv courses (pids.foldl (ancStep courses g) st) ∧
        ∃ e, (pids.foldl (ancStep courses g) st).visited = st.visited ++ e := by
  intro pids
  induction pids with
  | nil => intro st h; exact ⟨h, [], by simp⟩
  | cons pid rest ih =>
      intro st h
      rw [List.foldl_cons]
      obtain ⟨h1, e1, he1⟩ := ancStep_good courses g hg st pid h
      obtain ⟨h2, e2, he2⟩ := ih (ancStep courses g st pid) h1
      refine ⟨h2, e1 ++ e2, ?_⟩
      rw [he2, he1, List.append_assoc]

/-- The DFS preserves the invariant at every fuel. -/
theorem dfsA_good (courses : List Course) :
    ∀ fuel, GoodStep courses (dfsA courses fuel) := by
  intro fuel
  induction fuel with
  | zero =>
      intro n st h
      rw [dfsA]
      exact ⟨h, [], by simp⟩
  | succ fuel ih =>
      intro n st h
      rw [dfsA]
      cases hidx : indexGet courses n with
      | none => exact ⟨h, [], by simp⟩
      | some course => exact foldl_ancStep_good courses (dfsA courses fuel) ih _ st h

/-- C2 amended: the missing-prerequisite list never repeats a raw
spelling — identity for the dedup check is the exact original id string
(not the normalized key), first occurrence winning. -/
theorem missing_list_nodup (courses : List Course) (startId : String) :
    (collect_ancestor_ids courses startId).2.Nodup := by
  have hinit : AncInv courses ancInit := by
    refine ⟨List.nodup_nil, ?_, rfl, List.nodup_nil⟩
    intro v hv
    simp [ancInit] at hv
  obtain ⟨⟨-, -, -, hmn⟩, -⟩ :=
    dfsA_good courses (ancFuel courses) startId ancInit hinit
  exact hmn

/-! ## Fuel stability of the ancestor traversal -/

/-- A duplicate-free list contained in another list is no longer than
it. -/
theorem nodup_subset_length_le {l L : List String} (h : l.Nodup)
    (hs : ∀ x ∈ l, x ∈ L) : l.length ≤ L.length := by
  have h1 : l.toFinset.card = l.length := List.toFinset_card_of_nodup h
  have h2 : l.toFinset ⊆ L.toFinset := by
    intro x hx
    simp only [List.mem_toFinset] at hx ⊢
    exact hs x hx
  have h3 : L.toFinset.card ≤ L.length := L.toFinset_card_le
  have h4 := Finset.card_le_card h2
  omega

/-- Two recursive calls that agree below the unvisited gap make the
prerequisite loop agree. -/
theorem foldl_ancStep_congr (courses : List Course)
    (g₁ g₂ : String → AncState → AncState) (K : Nat) (hg₁ : GoodStep courses g₁)
    (hEq : ∀ n st, AncInv courses st →
      (allNorm courses).length - st.visited.length < K → g₁ n st = g₂ n st) :
    ∀ (pids : List String) (st : AncState), AncInv courses st →
      (allNorm courses).length - st.visited.length ≤ K →
      pids.foldl (ancStep courses g₁) st = pids.foldl (ancStep courses g₂) st := by
  intro pids
  induction pids with
  | nil => intro st h hK; rfl
  | cons pid rest ih =>
      intro st h hK
      have hstep : ancStep courses g₁ st pid = ancStep courses g₂ st pid := by
        rw [ancStep, ancStep]
        cases hidx : indexGet courses (normalize pid) with
        | none => rfl
        | some c =>
            by_cases hvis : normalize pid ∈ st.visited
            · rw [if_pos hvis, if_pos hvis]
            · rw [if_neg hvis, if_neg hvis]
              obtain ⟨hv, hsub, hseenEq, hmn⟩ := h
              have hnodup' : (st.visited ++ [normalize pid]).Nodup := by
                simp [List.nodup_append, hv, hvis]
              have hsub' : ∀ v ∈ st.visited ++ [normalize pid], v ∈ allNorm courses := by
                intro v hvm
                rcases List.mem_append.mp hvm with h' | h'
                · exact hsub v h'
                · simp only [List.mem_singleton] at h'
                  rw [h']
                  exact mem_allNorm_of_indexGet hidx
              have hlen : st.visited.length + 1 ≤ (allNorm courses).length := by
                have hle := nodup_subset_length_le hnodup' hsub'
                simpa using hle
              apply hEq
              · exact ⟨hnodup', hsub', hseenEq, hmn⟩
              · show (allNorm courses).length - (st.visited ++ [normalize pid]).length < K
                rw [List.length_append]
                simp only [List.length_singleton]
                omega
      rw [List.foldl_cons, List.foldl_cons, hstep]
      have hgood := ancStep_good courses g₁ hg₁ st pid h
      rw [hstep] at hgood
      obtain ⟨hinv₂, e, he⟩ := hgood
      apply ih (ancStep courses g₂ st pid) hinv₂
      have hlelen : st.visited.length ≤ (ancStep courses g₂ st pid).visited.length := by
        rw [he]
        simp
      omega

/-- The ancestor DFS is independent of the fuel once the fuel exceeds the
number of unvisited normalized ids. -/
theorem dfsA_congr (courses : List Course) :
    ∀ (K f₁ f₂ : Nat) (cur : String) (st : AncState),
      AncInv courses st → (allNorm courses).length - st.visited.length < K →
      K ≤ f₁ → K ≤ f₂ → dfsA courses f₁ cur st = dfsA courses f₂ cur st := by
  intro K
  induction K with
  | zero =>
      intro f₁ f₂ cur st h hgap h₁ h₂
      exact absurd hgap (Nat.not_lt_zero _)
  | succ K ih =>
      intro f₁ f₂ cur st h hgap h₁ h₂
      obtain ⟨f₁', rfl⟩ : ∃ m, f₁ = m + 1 := ⟨f₁ - 1, by omega⟩
      obtain ⟨f₂', rfl⟩ : ∃ m, f₂ = m + 1 := ⟨f₂ - 1, by omega⟩
      rw [dfsA, dfsA]
      cases hidx : indexGet courses cur with
      | none => rfl
      | some course =>
          apply foldl_ancStep_congr courses (dfsA courses f₁') (dfsA courses f₂') K
            (dfsA_good courses f₁')
          · intro n st' h' hgap'
            exact ih f₁' f₂' n st' h' hgap' (by omega) (by omega)
          · exact h
          · omega

/-! ## Fuel stability of the descendant traversal -/

/-- Every child recorded in the reverse-edge map is a normalized id of
the catalog. -/
theorem childrenOf_subset (courses : List Course) (p : String) :
    ∀ x ∈ childrenOf courses p, x ∈ allNorm courses := by
  intro x hx
  simp only [childrenOf, List.mem_map] at hx
  obtain ⟨c, hc, rfl⟩ := hx
  exact List.mem_dedup.mpr (List.mem_map_of_mem _ (List.mem_of_mem_filter hc))

/-- Splitting the unvisited-sum at a freshly visited node of a
duplicate-free domain. -/
theorem filter_sum_split (f : String → Nat) :
    ∀ (domain visited : List String) (cur : String),
      domain.Nodup → cur ∈ domain → cur ∉ visited →
      ((domain.filter (fun n => decide (n ∉ visited))).map f).sum =
        f cur + ((domain.filter (fun n => decide (n ∉ visited ++ [cur]))).map f).sum := by
  intro domain
  induction domain with
  | nil =>
      intro visited cur hnd hcur hnv
      simp at hcur
  | cons d rest ih =>
      intro visited cur hnd hcur hnv
      obtain ⟨hdrest, hrestnd⟩ := List.nodup_cons.mp hnd
      rcases List.mem_cons.mp hcur with heq | hmem
      · subst heq
        have hrest : rest.filter (fun n => decide (n ∉ visited)) =
            rest.filter (fun n => decide (n ∉ visited ++ [cur])) := by
          apply List.filter_congr
          intro n hn
          have hne : n ≠ cur := fun hcontr => hdrest (hcontr ▸ hn)
          simp [List.mem_append, hne]
        rw [List.filter_cons_of_pos (by simpa using hnv),
          List.filter_cons_of_neg (by simp), hrest]
        simp
      · have hdcur : d ≠ cur := fun hcontr => hdrest (hcontr ▸ hmem)
        by_cases hdv : d ∈ visited
        · rw [List.filter_cons_of_neg (by simpa using hdv),
            List.filter_cons_of_neg (by simp [List.mem_append, hdv])]
          exact ih visited cur hrestnd hmem hnv
        · rw [List.filter_cons_of_pos (by simpa using hdv),
            List.filter_cons_of_pos (by simp [List.mem_append, hdv, hdcur])]
          simp only [List.map_cons, List.sum_cons]
          rw [ih visited cur hrestnd hmem hnv]
          omega

/-- Visiting a fresh node lowers the loop potential by two. -/
theorem descPotential_visit (children : String → List String) (domain : List String)
    (cur : String) (rest visited : List String) (hdom : domain.Nodup)
    (hcur : cur ∈ domain) (hnv : cur ∉ visited) :
    descPotential children domain (children cur ++ rest) (visited ++ [cur]) + 2 =
      descPotential children domain (cur :: rest) visited := by
  have hsplit :=
    filter_sum_split (fun n => (children n).length + 1) domain visited cur hdom hcur hnv
  simp only [descPotential, List.length_append, List.length_cons] at hsplit ⊢
  omega

/-- The descendant loop is independent of the fuel once the fuel exceeds
the potential of its state. -/
theorem descLoop_congr (courses : List Course) :
    ∀ (K f₁ f₂ : Nat) (stack visited : List String),
      (∀ x ∈ stack, x ∈ allNorm courses) →
      descPotential (childrenOf courses) (allNorm courses) stack visited < K →
      K ≤ f₁ → K ≤ f₂ →
      descLoop (childrenOf courses) f₁ stack visited =
        descLoop (childrenOf courses) f₂ stack visited := by
  intro K
  induction K with
  | zero =>
      intro f₁ f₂ stack visited hs hpot h₁ h₂
      exact absurd hpot (Nat.not_lt_zero _)
  | succ K ih =>
      intro f₁ f₂ stack visited hs hpot h₁ h₂
      obtain ⟨f₁', rfl⟩ : ∃ m, f₁ = m + 1 := ⟨f₁ - 1, by omega⟩
      obtain ⟨f₂', rfl⟩ : ∃ m, f₂ = m + 1 := ⟨f₂ - 1, by omega⟩
      cases stack with
      | nil => rw [descLoop, descLoop]
      | cons cur rest =>
          rw [descLoop, descLoop]
          by_cases hv : cur ∈ visited
          · rw [if_pos hv, if_pos hv]
            have hstep : descPotential (childrenOf courses) (allNorm courses)
                (cur :: rest) visited =
                descPotential (childrenOf courses) (allNorm courses) rest visited + 1 := by
              simp only [descPotential, List.length_cons]
              omega
            exact ih f₁' f₂' rest visited
              (fun x hx => hs x (List.mem_cons_of_mem _ hx)) (by omega) (by omega) (by omega)
          · rw [if_neg hv, if_neg hv]
            have hvisit := descPotential_visit (childrenOf courses) (allNorm courses)
              cur rest visited (List.nodup_dedup _) (hs cur (List.mem_cons_self _ _)) hv
            apply ih f₁' f₂' (childrenOf courses cur ++ rest) (visited ++ [cur])
            · intro x hx
              rcases List.mem_append.mp hx with h' | h'
              · exact childrenOf_subset courses cur x h'
              · exact hs x (List.mem_cons_of_mem _ h')
            · omega
            · omega
            · omega

/-- The descendant loop's visited list never repeats a node: each node is
entered at most once. -/
theorem descLoop_nodup (children : String → List String) :
    ∀ (fuel : Nat) (stack visited : List String), visited.Nodup →
      (descLoop children fuel stack visited).Nodup := by
  intro fuel
  induction fuel with
  | zero =>
      intro stack visited h
      rw [descLoop]
      exact h
  | succ fuel ih =>
      intro stack visited h
      cases stack with
      | nil =>
          rw [descLoop]
          exact h
      | cons cur rest =>
          rw [descLoop]
          by_cases hv : cur ∈ visited
          · rw [if_pos hv]
            exact ih rest visited h
          · rw [if_neg hv]
            apply ih
            simp [List.nodup_append, h, hv]

/-- C6: on every catalog — cyclic or self-referential included — both
traversals are total: their fuel never matters beyond the explicit
bounds `ancFuel`/`descFuel` (so the Python recursion/loop terminates
without raising), and the visited-set check enters each node at most
once. -/
theorem traversals_terminate (courses : List Course) (startId : String) (f₁ f₂ : Nat) :
    (ancFuel courses ≤ f₁ → ancFuel courses ≤ f₂ →
        dfsA courses f₁ startId ancInit = dfsA courses f₂ startId ancInit) ∧
      (dfsA courses f₁ startId ancInit).visited.Nodup ∧
      (descFuel courses startId ≤ f₁ → descFuel courses startId ≤ f₂ →
        descLoop (childrenOf courses) f₁ (childrenOf courses startId) [] =
          descLoop (childrenOf courses) f₂ (childrenOf courses startId) []) ∧
      (descLoop (childrenOf courses) f₁ (childrenOf courses startId) []).Nodup := by
  have hinit : AncInv courses ancInit := by
    refine ⟨List.nodup_nil, ?_, rfl, List.nodup_nil⟩
    intro v hv
    simp [ancInit] at hv
  have hlen : (allNorm courses).length ≤ courses.length := by
    have h1 := (List.dedup_sublist (courses.map (fun c => normalize c.id))).length_le
    simpa [allNorm] using h1
  have hanc : ancFuel courses = courses.length + 1 := rfl
  refine ⟨?_, ?_, ?_, ?_⟩
  · intro h₁ h₂
    apply dfsA_congr courses ((allNorm courses).length + 1) f₁ f₂ startId ancInit hinit
    · show (allNorm courses).length - ancInit.visited.length < (allNorm courses).length + 1
      simp [ancInit]
    · omega
    · omega
  · exact (dfsA_good courses f₁ startId ancInit hinit).1.1
  · intro h₁ h₂
    have hfuel : descFuel courses startId =
        descPotential (childrenOf courses) (allNorm courses)
          (childrenOf courses startId) [] + 1 := rfl
    exact descLoop_congr courses (descFuel courses startId) f₁ f₂
      (childrenOf courses startId) [] (childrenOf_subset courses startId)
      (by omega) h₁ h₂
  · exact descLoop_nodup (childrenOf courses) f₁ _ [] List.nodup_nil

/-- Witness for `traversals_terminate` on the cyclic catalog. -/
theorem traversals_terminate_witness :
    dfsA cycCatalog.courses (ancFuel cycCatalog.courses) "a" ancInit =
        dfsA cycCatalog.courses (ancFuel cycCatalog.courses + 5) "a" ancInit ∧
      descLoop (childrenOf cycCatalog.courses) (descFuel cycCatalog.courses "a")
          (childrenOf cycCatalog.courses "a") [] =
        descLoop (childrenOf cycCatalog.courses) (descFuel cycCatalog.courses "a" + 5)
          (childrenOf cycCatalog.courses "a") [] :=
  ⟨(traversals_terminate cycCatalog.courses "a" (ancFuel cycCatalog.courses)
      (ancFuel cycCatalog.courses + 5)).1 (by decide) (by decide),
   (traversals_terminate cycCatalog.courses "a" (descFuel cycCatalog.courses "a")
      (descFuel cycCatalog.courses "a" + 5)).2.2.1 (by decide) (by decide)⟩

end Prereqs
